import Mathlib

/-!
Verification of the `pymfe` general and model-based metafeature modules.

Shallow embedding conventions:
* Python floats are modelled as exact rationals (`ℚ`); the IEEE `nan`
  sentinel produced by `np.nan` is `none` in `Option ℚ`.
* A raised Python exception (in particular `ZeroDivisionError` from integer
  division) is `Except.error ()`; a normal return value is `Except.ok v`.
* `np.ndarray` shapes are carried explicitly; functions that only read
  `X.shape` take an `NpShape`.
* The fitted `sklearn` decision tree is an external collaborator; only the
  raw child-pointer arrays (`children_left` / `children_right`, with `-1`
  as the "no child" sentinel) and the derived per-node property table are
  embedded, exactly as the code consumes them.
-/

namespace Pymfe

/-- A Python float value: `none` models the `np.nan` sentinel. -/
abbrev PyFloat := Option ℚ

/-- Python division: raises `ZeroDivisionError` on a zero denominator. -/
def pydiv (a b : ℚ) : Except Unit ℚ :=
  if b = 0 then Except.error () else Except.ok (a / b)

/-- The shape of a two-dimensional `np.ndarray`: `rows` is `shape[0]`
(instances), `cols` is `shape[1]` (attributes). -/
structure NpShape where
  rows : ℕ
  cols : ℕ
deriving DecidableEq

instance : DecidableEq (Except Unit PyFloat) := fun a b =>
  match a, b with
  | Except.error x, Except.error y => isTrue (by cases x; cases y; rfl)
  | Except.error _, Except.ok _ => isFalse (fun h => Except.noConfusion h)
  | Except.ok _, Except.error _ => isFalse (fun h => Except.noConfusion h)
  | Except.ok x, Except.ok y =>
    if h : x = y then isTrue (by rw [h])
    else isFalse (fun hh => h (Except.ok.inj hh))

/-- `MFEGeneral.ft_attr_to_inst`: `X.shape[1] / X.shape[0]`. -/
def ft_attr_to_inst (X : NpShape) : Except Unit PyFloat :=
  (pydiv (X.cols : ℚ) (X.rows : ℚ)).map (fun q => some q)

/-- `MFEGeneral.ft_inst_to_attr`: `X.shape[0] / X.shape[1]`. -/
def ft_inst_to_attr (X : NpShape) : Except Unit PyFloat :=
  (pydiv (X.rows : ℚ) (X.cols : ℚ)).map (fun q => some q)

/-- `MFEGeneral.ft_cat_to_num`: `num_cat = len(cat_cols)`; returns `np.nan`
when `X.shape[1] == num_cat`, else `num_cat / (X.shape[1] - num_cat)`. -/
def ft_cat_to_num (X : NpShape) (cat_cols : List ℕ) : Except Unit PyFloat :=
  let num_cat : ℤ := cat_cols.length
  if (X.cols : ℤ) = num_cat then Except.ok none
  else (pydiv (num_cat : ℚ) ((X.cols : ℚ) - (num_cat : ℚ))).map (fun q => some q)

/-- `MFEGeneral.ft_num_to_cat`: returns `np.nan` when `cat_cols` is empty,
else `(X.shape[1] - num_cat) / num_cat`. -/
def ft_num_to_cat (X : NpShape) (cat_cols : List ℕ) : Except Unit PyFloat :=
  if cat_cols = [] then Except.ok none
  else
    let num_cat : ℤ := cat_cols.length
    (pydiv ((X.cols : ℚ) - (num_cat : ℚ)) (num_cat : ℚ)).map (fun q => some q)

/-- `np.unique(y)`: the sorted list of distinct values of `y`. -/
def np_unique (y : List ℚ) : List ℚ := List.insertionSort (· ≤ ·) y.dedup

/-- The counts returned by `np.unique(y, return_counts=True)`, aligned with
`np_unique y`. -/
def class_freqs_of (y : List ℚ) : List ℕ :=
  (np_unique y).map (fun c => y.count c)

/-- `MFEGeneral.ft_freq_class`: `[np.nan]` on an empty target, else the
per-class absolute frequencies (precomputed ones if supplied, otherwise
recomputed via `np.unique`) divided by `y.size`. -/
def ft_freq_class (y : List ℚ) (class_freqs : Option (List ℕ)) : List PyFloat :=
  if y.length = 0 then [none]
  else
    let cf := match class_freqs with
      | none => class_freqs_of y
      | some v => v
    cf.map (fun c : ℕ => some ((c : ℚ) / (y.length : ℚ)))

/-- A value stored in the shared precomputation pool.  The fitted
`DecisionTreeClassifier` and its derived artifacts are produced by the
external model collaborator, so the model-based entries carry no payload;
the general-group entries carry the values the code computes. -/
inductive PoolVal where
  | classes (vals : List ℚ)
  | class_freqs (counts : List ℕ)
  | model
  | table
  | tree_depth_val
deriving DecidableEq

/-- `MFEGeneral.precompute_general_class`: computes `classes` and
`class_freqs` from `y` when `y is not None` and
`not {"classes", "class_freqs"}.issubset(kwargs)`.  Only key membership of
`kwargs` matters, so `kwargs` is embedded as its key list. -/
def precompute_general_class (y : Option (List ℚ)) (kwargs : List String) :
    List (String × PoolVal) :=
  match y with
  | none => []
  | some yv =>
    if ¬ (["classes", "class_freqs"].all (fun k => kwargs.contains k)) then
      [("classes", PoolVal.classes (np_unique yv)),
       ("class_freqs", PoolVal.class_freqs (class_freqs_of yv))]
    else []

/-- Result of `MFEModelBased.precompute_model_based_class`: `fits` counts the
`DecisionTreeClassifier(...).fit(N, y)` calls performed, `vals` is the
returned mapping. -/
structure MBPrecompResult where
  fits : ℕ
  vals : List (String × PoolVal)
deriving DecidableEq

/-- `MFEModelBased.precompute_model_based_class`: fits a decision tree and
produces `model`, `table` and `tree_depth` when `N is not None and y is not
None and not {"model", "table", "tree_depth"}.issubset(kwargs)`.
`random_state` only seeds the external model fit. -/
def precompute_model_based_class (N : Option NpShape) (y : Option (List ℚ))
    (random_state : Option ℤ) (kwargs : List String) : MBPrecompResult :=
  if N ≠ none ∧ y ≠ none ∧
      ¬ (["model", "table", "tree_depth"].all (fun k => kwargs.contains k)) then
    { fits := 1,
      vals := [("model", PoolVal.model), ("table", PoolVal.table),
               ("tree_depth", PoolVal.tree_depth_val)] }
  else { fits := 0, vals := [] }

/-- One row of the tree property table built by
`MFEModelBased.extract_table`: column 0 is the split feature id, column 1
the is-leaf flag, column 2 the node sample count, column 3 the class number
of a leaf (0 for internal nodes).  All columns live in a float array. -/
structure TableRow where
  feat : ℚ
  leaf : ℚ
  samples : ℚ
  cls : ℚ
deriving DecidableEq

/-- The C cast from float to int used by `np.sum(..., dtype=int)`:
truncation toward zero. -/
def ratTruncInt (q : ℚ) : ℤ := q.num.tdiv (q.den : ℤ)

/-- `MFEModelBased.ft_leaves`: `np.sum(table[:, 1], dtype=int)`. -/
def ft_leaves (table : List TableRow) : ℤ :=
  ((table.map (fun row => row.leaf)).map ratTruncInt).sum

/-- `MFEModelBased.ft_nodes`: `np.sum(table[:, 1] != 1)`. -/
def ft_nodes (table : List TableRow) : ℕ :=
  (table.map (fun row => row.leaf)).countP (fun v => v ≠ 1)

/-- Fuelled core of `firstOccs`; the fuel only serves structural recursion
and is never exhausted when it starts at the list length. -/
def firstOccsF : ℕ → List ℚ → List ℚ
  | 0, _ => []
  | _, [] => []
  | fuel + 1, a :: t => a :: firstOccsF fuel (t.filter (fun x => x ≠ a))

/-- The distinct values of a list in first-occurrence order: the iteration
order of a Python `collections.Counter` built from the list. -/
def firstOccs (xs : List ℚ) : List ℚ := firstOccsF xs.length xs

/-- `list(Counter(xs).values())`: the multiplicity of each distinct value of
`xs`, in first-occurrence order. -/
def counter_values (xs : List ℚ) : List ℕ :=
  (firstOccs xs).map (fun v => xs.count v)

/-- `MFEModelBased.ft_leaves_per_class`: drops the first `Counter` entry of
column 3 (`aux[1:]`) and divides the remaining counts by `ft_leaves`. -/
def ft_leaves_per_class (table : List TableRow) : List ℚ :=
  ((counter_values (table.map (fun row => row.cls))).tail).map
    (fun c : ℕ => (c : ℚ) / ((ft_leaves table : ℤ) : ℚ))

/-- `MFEModelBased.ft_nodes_repeated`: `Counter` multiplicities of
`table[:, 0][table[:, 0] > 0]`. -/
def ft_nodes_repeated (table : List TableRow) : List ℕ :=
  counter_values ((table.map (fun row => row.feat)).filter (fun v => 0 < v))

/-- Indexing into a child-pointer array (`children_left` /
`children_right`); well-formed trees never index out of range. -/
def zget (l : List ℤ) (i : ℕ) : ℤ := l.getD i (-1)

/-- The recursive walk `node_depth` inside `MFEModelBased.tree_depth`:
appends the current depth, then recurses into both children unless a child
pointer holds the `-1` sentinel.  `fuel` bounds the recursion depth; on a
well-formed tree it is never exhausted. -/
def node_depth (l r : List ℤ) : ℕ → ℕ → ℤ → List ℤ
  | 0, _, _ => []
  | fuel + 1, node, depth =>
    depth ::
      (if zget l node ≠ -1 ∧ zget r node ≠ -1 then
        node_depth l r fuel (zget l node).toNat (depth + 1) ++
          node_depth l r fuel (zget r node).toNat (depth + 1)
      else [])

/-- The same walk instrumented with the node id each appended depth belongs
to; `node_depth` is its second projection. -/
def node_depth_trace (l r : List ℤ) : ℕ → ℕ → ℤ → List (ℕ × ℤ)
  | 0, _, _ => []
  | fuel + 1, node, depth =>
    (node, depth) ::
      (if zget l node ≠ -1 ∧ zget r node ≠ -1 then
        node_depth_trace l r fuel (zget l node).toNat (depth + 1) ++
          node_depth_trace l r fuel (zget r node).toNat (depth + 1)
      else [])

/-- `MFEModelBased.tree_depth`: the walk started at the root with depth 0.
A node count's worth of fuel suffices on any well-formed tree. -/
def tree_depth (l r : List ℤ) : List ℤ := node_depth l r l.length 0 0

/-- Instrumented version of `tree_depth`. -/
def tree_depth_trace (l r : List ℤ) : List (ℕ × ℤ) :=
  node_depth_trace l r l.length 0 0

/-- Well-formedness of the child-pointer arrays of a fitted `sklearn`
decision tree: both arrays have one entry per node, and every node either
has both pointers equal to the `-1` sentinel (a leaf) or both pointing to
in-range nodes of strictly larger index. -/
def WFTree (l r : List ℤ) : Prop :=
  l.length = r.length ∧
  ∀ i : ℕ, i < l.length →
    (zget l i = -1 ∨ zget r i = -1) ∨
    ((i : ℤ) < zget l i ∧ (i : ℤ) < zget r i ∧
      zget l i < (l.length : ℤ) ∧ zget r i < (l.length : ℤ))

instance (l r : List ℤ) : Decidable (WFTree l r) := by
  unfold WFTree
  infer_instance

/-- The table family described by the spec's tree-property-table contract:
column 1 is a 0/1 is-leaf flag, column 3 is a positive class number on leaf
rows and 0 on internal rows. -/
def ExtractionTable (table : List TableRow) : Prop :=
  ∀ row ∈ table, (row.leaf = 0 ∨ row.leaf = 1) ∧
    (row.leaf = 1 → 1 ≤ row.cls) ∧ (row.leaf = 0 → row.cls = 0)

instance : DecidablePred ExtractionTable := by
  intro table
  unfold ExtractionTable
  infer_instance

lemma count_filter_ne (t : List ℚ) (a v : ℚ) (hv : v ≠ a) :
    (t.filter (fun x => x ≠ a)).count v = t.count v :=
  List.count_filter (by simpa using hv)

lemma count_add_filter_length (t : List ℚ) (a : ℚ) :
    t.count a + (t.filter (fun x => x ≠ a)).length = t.length := by
  induction t with
  | nil => rfl
  | cons b tl ih =>
    by_cases hb : b = a
    · subst hb
      rw [List.count_cons_self, List.filter_cons_of_neg (by simp),
        List.length_cons]
      omega
    · rw [List.count_cons_of_ne (fun h => hb h.symm),
        List.filter_cons_of_pos (by simpa using hb), List.length_cons,
        List.length_cons]
      omega

lemma mem_firstOccsF : ∀ (fuel : ℕ) (xs : List ℚ), xs.length ≤ fuel →
    ∀ v : ℚ, (v ∈ firstOccsF fuel xs ↔ v ∈ xs) := by
  intro fuel
  induction fuel with
  | zero =>
    intro xs h v
    have hnil : xs = [] := List.length_eq_zero.mp (Nat.le_zero.mp h)
    subst hnil
    simp [firstOccsF]
  | succ k ih =>
    intro xs h v
    cases xs with
    | nil => simp [firstOccsF]
    | cons a t =>
      have hlen : (t.filter (fun x => x ≠ a)).length ≤ k :=
        le_trans (t.length_filter_le _) (by simpa using h)
      simp only [firstOccsF]
      constructor
      · intro hm
        rcases List.mem_cons.mp hm with hm | hm
        · simp [hm]
        · exact List.mem_cons_of_mem _
            (List.mem_of_mem_filter ((ih _ hlen v).mp hm))
      · intro hm
        rcases List.mem_cons.mp hm with hm | hm
        · simp [hm]
        · by_cases hva : v = a
          · simp [hva]
          · exact List.mem_cons_of_mem _
              ((ih _ hlen v).mpr (List.mem_filter.mpr ⟨hm, by simpa using hva⟩))

lemma mem_firstOccs (xs : List ℚ) (v : ℚ) : v ∈ firstOccs xs ↔ v ∈ xs :=
  mem_firstOccsF xs.length xs le_rfl v

lemma nodup_firstOccsF : ∀ (fuel : ℕ) (xs : List ℚ), xs.length ≤ fuel →
    (firstOccsF fuel xs).Nodup := by
  intro fuel
  induction fuel with
  | zero =>
    intro xs h
    have hnil : xs = [] := List.length_eq_zero.mp (Nat.le_zero.mp h)
    subst hnil
    simp [firstOccsF]
  | succ k ih =>
    intro xs h
    cases xs with
    | nil => simp [firstOccsF]
    | cons a t =>
      have hlen : (t.filter (fun x => x ≠ a)).length ≤ k :=
        le_trans (t.length_filter_le _) (by simpa using h)
      simp only [firstOccsF]
      refine List.nodup_cons.mpr ⟨?_, ih _ hlen⟩
      intro hmem
      have := List.of_mem_filter ((mem_firstOccsF k _ hlen a).mp hmem)
      simp at this

lemma nodup_firstOccs (xs : List ℚ) : (firstOccs xs).Nodup :=
  nodup_firstOccsF xs.length xs le_rfl

lemma sum_counts_firstOccsF : ∀ (fuel : ℕ) (xs : List ℚ), xs.length ≤ fuel →
    ((firstOccsF fuel xs).map (fun v => xs.count v)).sum = xs.length := by
  intro fuel
  induction fuel with
  | zero =>
    intro xs h
    have hnil : xs = [] := List.length_eq_zero.mp (Nat.le_zero.mp h)
    subst hnil
    simp [firstOccsF]
  | succ k ih =>
    intro xs h
    cases xs with
    | nil => simp [firstOccsF]
    | cons a t =>
      have hlen : (t.filter (fun x => x ≠ a)).length ≤ k :=
        le_trans (t.length_filter_le _) (by simpa using h)
      have hmap : (firstOccsF k (t.filter (fun x => x ≠ a))).map
            (fun v => (a :: t).count v) =
          (firstOccsF k (t.filter (fun x => x ≠ a))).map
            (fun v => (t.filter (fun x => x ≠ a)).count v) := by
        refine List.map_congr_left ?_
        intro v hv
        have hvmem := (mem_firstOccsF k _ hlen v).mp hv
        have hvne : v ≠ a := by
          have := List.of_mem_filter hvmem
          simpa using this
        rw [List.count_cons_of_ne hvne, count_filter_ne _ _ _ hvne]
      simp only [firstOccsF]
      rw [List.map_cons, List.sum_cons, hmap, ih _ hlen,
        List.count_cons_self, List.length_cons]
      have := count_add_filter_length t a
      omega

lemma sum_counts_firstOccs (xs : List ℚ) :
    ((firstOccs xs).map (fun v => xs.count v)).sum = xs.length :=
  sum_counts_firstOccsF xs.length xs le_rfl

lemma sum_map_div_cast (ns : List ℕ) (d : ℚ) :
    (ns.map (fun c : ℕ => (c : ℚ) / d)).sum = (ns.sum : ℚ) / d := by
  induction ns with
  | nil => simp
  | cons c t ih =>
    rw [List.map_cons, List.sum_cons, ih, List.sum_cons]
    push_cast
    rw [add_div]

lemma sum_trunc_eq_count (vs : List ℚ) (h : ∀ v ∈ vs, v = 0 ∨ v = 1) :
    (vs.map ratTruncInt).sum = (vs.count 1 : ℤ) := by
  induction vs with
  | nil => simp
  | cons v t ih =>
    have ht : ∀ w ∈ t, w = 0 ∨ w = 1 := fun w hw => h w (List.mem_cons_of_mem _ hw)
    rcases h v (List.mem_cons_self _ _) with hv | hv
    · subst hv
      have h0 : ratTruncInt 0 = 0 := by decide
      have hc : ((0 : ℚ) :: t).count 1 = t.count 1 := by
        simp [List.count_cons]
      simp [h0, ih ht, hc]
    · subst hv
      have h1 : ratTruncInt 1 = 1 := by decide
      have hc : ((1 : ℚ) :: t).count 1 = t.count 1 + 1 := by
        simp [List.count_cons]
      simp only [List.map_cons, List.sum_cons, h1, ih ht, hc]
      push_cast
      ring

lemma node_depth_eq_map_snd (l r : List ℤ) :
    ∀ fuel node depth, node_depth l r fuel node depth =
      (node_depth_trace l r fuel node depth).map Prod.snd := by
  intro fuel
  induction fuel with
  | zero => intro node depth; rfl
  | succ k ih =>
    intro node depth
    by_cases h : zget l node ≠ -1 ∧ zget r node ≠ -1
    · simp only [node_depth, node_depth_trace, if_pos h, List.map_cons,
        List.map_append, ih]
    · simp only [node_depth, node_depth_trace, if_neg h, List.map_cons,
        List.map_nil]

lemma node_depth_nonneg (l r : List ℤ) :
    ∀ fuel node depth, 0 ≤ depth →
      ∀ d ∈ node_depth l r fuel node depth, 0 ≤ d := by
  intro fuel
  induction fuel with
  | zero => intro node depth _ d hd; simp [node_depth] at hd
  | succ k ih =>
    intro node depth hdep d hd
    simp only [node_depth] at hd
    rcases List.mem_cons.mp hd with h | h
    · omega
    · by_cases hint : zget l node ≠ -1 ∧ zget r node ≠ -1
      · rw [if_pos hint] at h
        rcases List.mem_append.mp h with h | h
        · exact ih _ _ (by omega) d h
        · exact ih _ _ (by omega) d h
      · rw [if_neg hint] at h
        simp at h

lemma node_depth_sentinel (l r : List ℤ) (fuel : ℕ) (node : ℕ) (depth : ℤ)
    (h : zget l node = -1 ∨ zget r node = -1) :
    node_depth l r (fuel + 1) node depth = [depth] := by
  have hneg : ¬ (zget l node ≠ -1 ∧ zget r node ≠ -1) := by tauto
  simp only [node_depth, if_neg hneg]

lemma node_depth_trace_spec (l r : List ℤ) (hwf : WFTree l r) :
    ∀ fuel node depth, node < l.length → l.length - node ≤ fuel →
      ∀ p ∈ node_depth_trace l r fuel node depth,
        p.1 < l.length ∧
        (zget l p.1 ≠ -1 ∧ zget r p.1 ≠ -1 →
          ((zget l p.1).toNat, p.2 + 1) ∈ node_depth_trace l r fuel node depth ∧
          ((zget r p.1).toNat, p.2 + 1) ∈ node_depth_trace l r fuel node depth) := by
  intro fuel
  induction fuel with
  | zero => intro node depth hn hf p hp; exact absurd hn (by omega)
  | succ k ih =>
    intro node depth hn hf p hp
    obtain ⟨hlr, hwfi⟩ := hwf
    by_cases hint : zget l node ≠ -1 ∧ zget r node ≠ -1
    · have hbounds := hwfi node hn
      have hb2 : (node : ℤ) < zget l node ∧ (node : ℤ) < zget r node ∧
          zget l node < (l.length : ℤ) ∧ zget r node < (l.length : ℤ) := by
        rcases hbounds with h | h
        · exact absurd h (by tauto)
        · exact h
      have hlcast : ((zget l node).toNat : ℤ) = zget l node :=
        Int.toNat_of_nonneg (by omega)
      have hrcast : ((zget r node).toNat : ℤ) = zget r node :=
        Int.toNat_of_nonneg (by omega)
      have hlc_lt : (zget l node).toNat < l.length := by omega
      have hrc_lt : (zget r node).toNat < l.length := by omega
      have hlc_gt : node < (zget l node).toNat := by omega
      have hrc_gt : node < (zget r node).toNat := by omega
      simp only [node_depth_trace, if_pos hint] at hp ⊢
      rcases List.mem_cons.mp hp with hphead | hptail
      · subst hphead
        refine ⟨hn, fun _ => ?_⟩
        obtain ⟨k2, rfl⟩ : ∃ k2, k = k2 + 1 := ⟨k - 1, by omega⟩
        constructor
        · refine List.mem_cons_of_mem _ (List.mem_append_left _ ?_)
          simp only [node_depth_trace]
          exact List.mem_cons_self _ _
        · refine List.mem_cons_of_mem _ (List.mem_append_right _ ?_)
          simp only [node_depth_trace]
          exact List.mem_cons_self _ _
      · rcases List.mem_append.mp hptail with hpl | hpr
        · have hspec := ih (zget l node).toNat (depth + 1) hlc_lt
            (by omega) p hpl
          refine ⟨hspec.1, fun hi => ?_⟩
          obtain ⟨ha, hb⟩ := hspec.2 hi
          exact ⟨List.mem_cons_of_mem _ (List.mem_append_left _ ha),
            List.mem_cons_of_mem _ (List.mem_append_left _ hb)⟩
        · have hspec := ih (zget r node).toNat (depth + 1) hrc_lt
            (by omega) p hpr
          refine ⟨hspec.1, fun hi => ?_⟩
          obtain ⟨ha, hb⟩ := hspec.2 hi
          exact ⟨List.mem_cons_of_mem _ (List.mem_append_right _ ha),
            List.mem_cons_of_mem _ (List.mem_append_right _ hb)⟩
    · simp only [node_depth_trace, if_neg hint] at hp ⊢
      have hp2 : p = (node, depth) := by simpa using hp
      subst hp2
      exact ⟨hn, fun hi => absurd hi hint⟩

lemma firstOccsF_fuel_invariant : ∀ (f1 f2 : ℕ) (xs : List ℚ),
    xs.length ≤ f1 → xs.length ≤ f2 → firstOccsF f1 xs = firstOccsF f2 xs := by
  intro f1
  induction f1 with
  | zero =>
    intro f2 xs h1 h2
    have hnil : xs = [] := List.length_eq_zero.mp (Nat.le_zero.mp h1)
    subst hnil
    cases f2 <;> rfl
  | succ k ih =>
    intro f2 xs h1 h2
    cases xs with
    | nil => cases f2 <;> rfl
    | cons a t =>
      obtain ⟨k2, rfl⟩ : ∃ k2, f2 = k2 + 1 := ⟨f2 - 1, by simp at h2; omega⟩
      have hlen : (t.filter (fun x => x ≠ a)).length ≤ t.length :=
        t.length_filter_le _
      simp only [firstOccsF]
      rw [ih k2 _ (by simp at h1; omega) (by simp at h2; omega)]

lemma class_freqs_sum (y : List ℚ) : (class_freqs_of y).sum = y.length := by
  unfold class_freqs_of np_unique
  have h1 : (List.insertionSort (· ≤ ·) y.dedup).Perm y.dedup :=
    List.perm_insertionSort _ _
  have h2 : (y.dedup).Perm (firstOccs y) :=
    (List.perm_ext_iff_of_nodup y.nodup_dedup (nodup_firstOccs y)).mpr
      (fun v => by rw [List.mem_dedup, mem_firstOccs])
  have h3 := (h1.trans h2).map (fun v => y.count v)
  rw [h3.sum_eq, sum_counts_firstOccs]

lemma count_add_countP_ne (vs : List ℚ) (a : ℚ) :
    vs.count a + vs.countP (fun v => v ≠ a) = vs.length := by
  induction vs with
  | nil => rfl
  | cons b t ih =>
    by_cases hb : b = a
    · subst hb
      rw [List.count_cons_self, List.countP_cons_of_neg _ _ (by simp),
        List.length_cons]
      omega
    · rw [List.count_cons_of_ne (fun h => hb h.symm),
        List.countP_cons_of_pos _ _ (by simpa using hb), List.length_cons]
      omega

/-- Claim C1 counterexample: with `kwargs` holding a proper nonempty subset
of a routine's key set (here just `classes`, resp. just `model`), the
returned mapping does contain a key already present in `kwargs`. -/
theorem claim_C1_cex :
    ("classes" ∈ (precompute_general_class (some [0]) ["classes"]).map Prod.fst ∧
      "classes" ∈ (["classes"] : List String)) ∧
    ("model" ∈ (precompute_model_based_class (some ⟨1, 1⟩) (some [0]) none
        ["model"]).vals.map Prod.fst ∧
      "model" ∈ (["model"] : List String)) := by
  decide

/-- Claim C1 (amended): the mapping returned by `precompute_general_class`
and by `precompute_model_based_class` is disjoint from `kwargs` whenever
`kwargs` contains either all of the routine's keys or none of them; only a
proper nonempty subset in `kwargs` can be overwritten by the merge. -/
theorem claim_C1_precompute_no_overwrite (y : Option (List ℚ)) (N : Option NpShape)
    (random_state : Option ℤ) (kwargs : List String)
    (hg : (∀ k ∈ ["classes", "class_freqs"], k ∈ kwargs) ∨
      (∀ k ∈ ["classes", "class_freqs"], k ∉ kwargs))
    (hm : (∀ k ∈ ["model", "table", "tree_depth"], k ∈ kwargs) ∨
      (∀ k ∈ ["model", "table", "tree_depth"], k ∉ kwargs)) :
    (∀ k ∈ (precompute_general_class y kwargs).map Prod.fst, k ∉ kwargs) ∧
    (∀ k ∈ (precompute_model_based_class N y random_state kwargs).vals.map Prod.fst,
      k ∉ kwargs) := by
  constructor
  · intro k hk
    unfold precompute_general_class at hk
    split at hk
    · simp at hk
    · split at hk
      · rename_i hguard
        rcases hg with hg | hg
        · refine absurd ?_ hguard
          simp only [List.all_eq_true]
          intro s hs
          exact List.elem_iff.mpr (hg s hs)
        · simp only [List.map_cons, List.map_nil] at hk
          rcases List.mem_cons.mp hk with h | h
          · subst h
            exact hg _ (by simp)
          · have hkk : k = "class_freqs" := by simpa using h
            subst hkk
            exact hg _ (by simp)
      · simp at hk
  · intro k hk
    unfold precompute_model_based_class at hk
    split at hk
    · rename_i hguard
      rcases hm with hm | hm
      · refine absurd ?_ hguard.2.2
        simp only [List.all_eq_true]
        intro s hs
        exact List.elem_iff.mpr (hm s hs)
      · simp only [List.map_cons, List.map_nil] at hk
        rcases List.mem_cons.mp hk with h | h
        · subst h
          exact hm _ (by simp)
        · rcases List.mem_cons.mp h with h2 | h2
          · subst h2
            exact hm _ (by simp)
          · have hkk : k = "tree_depth" := by simpa using h2
            subst hkk
            exact hm _ (by simp)
    · simp at hk

/-- Witness for claim C1 at concrete inputs: an empty pool is disjoint from
both routines' outputs. -/
theorem claim_C1_witness :
    (∀ k ∈ (precompute_general_class (some [0]) []).map Prod.fst,
      k ∉ ([] : List String)) ∧
    (∀ k ∈ (precompute_model_based_class (some ⟨2, 2⟩) (some [0]) none
        []).vals.map Prod.fst, k ∉ ([] : List String)) :=
  claim_C1_precompute_no_overwrite (some [0]) (some ⟨2, 2⟩) none []
    (Or.inr (by decide)) (Or.inr (by decide))

/-- Claim C2: when `kwargs` already holds all of `model`, `table` and
`tree_depth`, `precompute_model_based_class` fits no decision tree and
returns the empty mapping. -/
theorem claim_C2_fit_at_most_once (N : Option NpShape) (y : Option (List ℚ))
    (random_state : Option ℤ) (kwargs : List String)
    (h : ∀ k ∈ ["model", "table", "tree_depth"], k ∈ kwargs) :
    precompute_model_based_class N y random_state kwargs = ⟨0, []⟩ := by
  unfold precompute_model_based_class
  have hall : (["model", "table", "tree_depth"].all fun s => kwargs.contains s) = true := by
    simp only [List.all_eq_true]
    intro s hs
    exact List.elem_iff.mpr (h s hs)
  rw [if_neg (fun hcontra => hcontra.2.2 hall)]

/-- Witness for claim C2 at a concrete input. -/
theorem claim_C2_witness :
    precompute_model_based_class (some ⟨3, 2⟩) (some [0, 1]) (some 0)
      ["model", "table", "tree_depth"] = ⟨0, []⟩ :=
  claim_C2_fit_at_most_once _ _ _ _ (by decide)

/-- Claim C3: `ft_freq_class` returns the singleton `nan` sequence on an
empty target, and on a non-empty target with no precomputed frequencies its
entries are rationals summing to exactly 1. -/
theorem claim_C3_freq_class (y : List ℚ) :
    (y = [] → ft_freq_class y none = [none]) ∧
    (y ≠ [] → ∃ qs : List ℚ, ft_freq_class y none = qs.map some ∧ qs.sum = 1) := by
  constructor
  · intro h
    subst h
    rfl
  · intro h
    have hlen0 : ¬ (y.length = 0) := fun hh => h (List.length_eq_zero.mp hh)
    have hlen : (y.length : ℚ) ≠ 0 := by exact_mod_cast hlen0
    refine ⟨(class_freqs_of y).map (fun c : ℕ => (c : ℚ) / (y.length : ℚ)), ?_, ?_⟩
    · unfold ft_freq_class
      rw [if_neg hlen0, List.map_map]
      rfl
    · rw [sum_map_div_cast, class_freqs_sum, div_self hlen]

/-- Witness for claim C3 at concrete inputs. -/
theorem claim_C3_witness :
    ft_freq_class [] none = [none] ∧
    ∃ qs : List ℚ, ft_freq_class [0, 0, 1] none = qs.map some ∧ qs.sum = 1 :=
  ⟨(claim_C3_freq_class []).1 rfl, (claim_C3_freq_class [0, 0, 1]).2 (by decide)⟩

/-- Claim C4: on every well-formed fitted tree, the `tree_depth` walk
assigns depth 0 to the root, assigns depth parent + 1 to both children of
every internal node it visits, stops exactly at the `-1` sentinel child
pointer, and produces only non-negative entries. -/
theorem claim_C4_tree_depth_walk (l r : List ℤ) (hwf : WFTree l r)
    (hlen : 0 < l.length) :
    (tree_depth_trace l r).head? = some (0, 0) ∧
    (∀ p ∈ tree_depth_trace l r,
      zget l p.1 ≠ -1 ∧ zget r p.1 ≠ -1 →
        ((zget l p.1).toNat, p.2 + 1) ∈ tree_depth_trace l r ∧
        ((zget r p.1).toNat, p.2 + 1) ∈ tree_depth_trace l r) ∧
    (∀ (fuel : ℕ) (node : ℕ) (depth : ℤ),
      zget l node = -1 ∨ zget r node = -1 →
        node_depth l r (fuel + 1) node depth = [depth]) ∧
    (∀ d ∈ tree_depth l r, 0 ≤ d) ∧
    tree_depth l r = (tree_depth_trace l r).map Prod.snd := by
  refine ⟨?_, ?_, ?_, ?_, ?_⟩
  · unfold tree_depth_trace
    obtain ⟨k, hk⟩ : ∃ k, l.length = k + 1 := ⟨l.length - 1, by omega⟩
    rw [hk]
    simp only [node_depth_trace]
    rfl
  · intro p hp hint
    exact (node_depth_trace_spec l r hwf l.length 0 0 hlen (by omega) p hp).2 hint
  · exact fun fuel node depth h => node_depth_sentinel l r fuel node depth h
  · intro d hd
    exact node_depth_nonneg l r l.length 0 0 le_rfl d hd
  · exact node_depth_eq_map_snd l r l.length 0 0

/-- Witness for claim C4 on a concrete three-node tree. -/
theorem claim_C4_witness :
    (tree_depth_trace [1, -1, -1] [2, -1, -1]).head? = some (0, 0) ∧
    tree_depth [1, -1, -1] [2, -1, -1] =
      (tree_depth_trace [1, -1, -1] [2, -1, -1]).map Prod.snd :=
  ⟨(claim_C4_tree_depth_walk [1, -1, -1] [2, -1, -1] (by decide) (by decide)).1,
    (claim_C4_tree_depth_walk [1, -1, -1] [2, -1, -1] (by decide)
      (by decide)).2.2.2.2⟩

/-- Claim C6 counterexample: `ft_attr_to_inst` on a dataset with zero
instances raises `ZeroDivisionError` instead of returning `nan`, and so
does `ft_inst_to_attr` on zero attributes. -/
theorem claim_C6_cex :
    ft_attr_to_inst ⟨0, 4⟩ ≠ Except.ok none ∧
    ft_attr_to_inst ⟨0, 4⟩ = Except.error () ∧
    ft_inst_to_attr ⟨4, 0⟩ = Except.error () := by
  decide

/-- Claim C6 (amended): the guarded ratio features `ft_cat_to_num` and
`ft_num_to_cat` return the `nan` sentinel without raising when their
denominators would be zero, while the unguarded `ft_attr_to_inst` and
`ft_inst_to_attr` raise a division-by-zero error there. -/
theorem claim_C6_zero_denominator (X : NpShape) (cat_cols : List ℕ) :
    (X.rows = 0 → ft_attr_to_inst X = Except.error ()) ∧
    (X.cols = 0 → ft_inst_to_attr X = Except.error ()) ∧
    ((X.cols : ℤ) = (cat_cols.length : ℤ) → ft_cat_to_num X cat_cols = Except.ok none) ∧
    (cat_cols = [] → ft_num_to_cat X cat_cols = Except.ok none) := by
  refine ⟨fun h => ?_, fun h => ?_, fun h => ?_, fun h => ?_⟩
  · simp [ft_attr_to_inst, pydiv, h, Except.map]
  · simp [ft_inst_to_attr, pydiv, h, Except.map]
  · simp only [ft_cat_to_num]
    rw [if_pos h]
  · simp [ft_num_to_cat, h]

/-- Witness for claim C6 at concrete degenerate shapes. -/
theorem claim_C6_witness :
    ft_cat_to_num ⟨10, 3⟩ [0, 1, 2] = Except.ok none ∧
    ft_num_to_cat ⟨10, 3⟩ [] = Except.ok none :=
  ⟨(claim_C6_zero_denominator ⟨10, 3⟩ [0, 1, 2]).2.2.1 (by decide),
    (claim_C6_zero_denominator ⟨10, 3⟩ []).2.2.2 rfl⟩

/-- Claim C7 counterexample: on a dataset with 4 columns and zero
categorical columns, `ft_cat_to_num` returns 0, not the `nan` sentinel. -/
theorem claim_C7_cex :
    ft_cat_to_num ⟨150, 4⟩ [] ≠ Except.ok none ∧
    ft_cat_to_num ⟨150, 4⟩ [] = Except.ok (some 0) := by
  constructor
  · norm_num [ft_cat_to_num, pydiv, Except.map]
    simp
  · norm_num [ft_cat_to_num, pydiv, Except.map]

/-- Claim C7 (amended): with an empty categorical-column list,
`ft_cat_to_num` returns the `nan` sentinel only when the attribute count is
also zero; with at least one column it returns 0. -/
theorem claim_C7_cat_to_num_no_cats (X : NpShape) (cat_cols : List ℕ)
    (h : cat_cols = []) :
    ft_cat_to_num X cat_cols =
      Except.ok (if (X.cols : ℤ) = 0 then none else some 0) := by
  subst h
  by_cases hc : (X.cols : ℤ) = 0
  · rw [if_pos hc]
    simp only [ft_cat_to_num, List.length_nil, Nat.cast_zero]
    rw [if_pos hc]
  · rw [if_neg hc]
    have hq : ((X.cols : ℚ) - ((0 : ℤ) : ℚ)) ≠ 0 := by
      have : (X.cols : ℤ) ≠ 0 := hc
      push_cast
      simpa using (by exact_mod_cast this : (X.cols : ℚ) ≠ 0)
    simp only [ft_cat_to_num, List.length_nil, Nat.cast_zero]
    rw [if_neg hc]
    unfold pydiv
    rw [if_neg (by simpa using hq)]
    simp [Except.map]

/-- Witness for claim C7 at a concrete shape. -/
theorem claim_C7_witness :
    ft_cat_to_num ⟨150, 4⟩ [] =
      Except.ok (if ((4 : ℕ) : ℤ) = 0 then none else some 0) :=
  claim_C7_cat_to_num_no_cats ⟨150, 4⟩ [] rfl

/-- Claim C8: on any dataset with at least one instance and one attribute,
`ft_attr_to_inst` and `ft_inst_to_attr` return plain rationals whose
product is exactly 1. -/
theorem claim_C8_inverse_ratio (X : NpShape) (h1 : 0 < X.rows)
    (h2 : 0 < X.cols) :
    ∃ a b : ℚ, ft_attr_to_inst X = Except.ok (some a) ∧
      ft_inst_to_attr X = Except.ok (some b) ∧ a * b = 1 := by
  have hr : (X.rows : ℚ) ≠ 0 := by
    exact_mod_cast Nat.pos_iff_ne_zero.mp h1
  have hc : (X.cols : ℚ) ≠ 0 := by
    exact_mod_cast Nat.pos_iff_ne_zero.mp h2
  refine ⟨(X.cols : ℚ) / (X.rows : ℚ), (X.rows : ℚ) / (X.cols : ℚ), ?_, ?_, ?_⟩
  · simp [ft_attr_to_inst, pydiv, hr, Except.map]
  · simp [ft_inst_to_attr, pydiv, hc, Except.map]
  · field_simp

/-- Witness for claim C8 at a concrete shape. -/
theorem claim_C8_witness :
    ∃ a b : ℚ, ft_attr_to_inst ⟨150, 4⟩ = Except.ok (some a) ∧
      ft_inst_to_attr ⟨150, 4⟩ = Except.ok (some b) ∧ a * b = 1 :=
  claim_C8_inverse_ratio ⟨150, 4⟩ (by decide) (by decide)

/-- Claim C9: when the is-leaf column is 0/1-valued, `ft_leaves` plus
`ft_nodes` equals the number of rows of the table. -/
theorem claim_C9_leaves_plus_nodes (table : List TableRow)
    (h : ∀ row ∈ table, row.leaf = 0 ∨ row.leaf = 1) :
    ft_leaves table + (ft_nodes table : ℤ) = (table.length : ℤ) := by
  unfold ft_leaves ft_nodes
  rw [sum_trunc_eq_count _ ?hv]
  case hv =>
    intro v hv
    obtain ⟨row, hrow, rfl⟩ := List.mem_map.mp hv
    exact h row hrow
  have hsplit := count_add_countP_ne (table.map fun row => row.leaf) 1
  have hlen : (table.map fun row => row.leaf).length = table.length :=
    List.length_map _ _
  omega

/-- Witness for claim C9 on a concrete three-row table. -/
theorem claim_C9_witness :
    ft_leaves [(⟨2, 0, 10, 0⟩ : TableRow), ⟨-2, 1, 5, 2⟩, ⟨-2, 1, 5, 3⟩] +
      (ft_nodes [(⟨2, 0, 10, 0⟩ : TableRow), ⟨-2, 1, 5, 2⟩, ⟨-2, 1, 5, 3⟩] : ℤ) =
      (([(⟨2, 0, 10, 0⟩ : TableRow), ⟨-2, 1, 5, 2⟩, ⟨-2, 1, 5, 3⟩]).length : ℤ) :=
  claim_C9_leaves_plus_nodes _ (by decide)

/-- Claim C10: `ft_nodes_repeated` counts only rows whose feature id is
strictly positive; appending a row with a non-positive feature id (an
attribute-0 split or a leaf sentinel) leaves the result unchanged. -/
theorem claim_C10_nodes_repeated (table : List TableRow) :
    (ft_nodes_repeated table).sum =
      (table.map (fun row => row.feat)).countP (fun v => 0 < v) ∧
    (∀ row : TableRow, row.feat ≤ 0 →
      ft_nodes_repeated (table ++ [row]) = ft_nodes_repeated table) := by
  constructor
  · unfold ft_nodes_repeated counter_values
    rw [sum_counts_firstOccs]
    exact (List.countP_eq_length_filter _ _).symm
  · intro row hrow
    unfold ft_nodes_repeated
    rw [List.map_append, List.filter_append]
    have hemp : (([row].map (fun r : TableRow => r.feat)).filter
        (fun v => 0 < v)) = ([] : List ℚ) := by
      simp only [List.map_cons, List.map_nil]
      rw [List.filter_cons_of_neg (by simpa using not_lt.mpr hrow),
        List.filter_nil]
    rw [hemp, List.append_nil]

/-- Witness for claim C10: appending a leaf row with the `-2` sentinel
feature id does not change the repeated-attribute counts. -/
theorem claim_C10_witness :
    ft_nodes_repeated ([(⟨2, 0, 10, 0⟩ : TableRow), ⟨-2, 1, 5, 2⟩] ++
      [⟨-2, 1, 5, 3⟩]) =
      ft_nodes_repeated [(⟨2, 0, 10, 0⟩ : TableRow), ⟨-2, 1, 5, 2⟩] :=
  (claim_C10_nodes_repeated _).2 ⟨-2, 1, 5, 3⟩ (by decide)

lemma cls_filter_length_eq_leaf_count (t : List TableRow)
    (h : ∀ row ∈ t, (row.leaf = 0 ∨ row.leaf = 1) ∧
      (row.leaf = 1 → 1 ≤ row.cls) ∧ (row.leaf = 0 → row.cls = 0)) :
    ((t.map (fun row => row.cls)).filter (fun x => x ≠ (0 : ℚ))).length =
      (t.map (fun row => row.leaf)).count 1 := by
  induction t with
  | nil => rfl
  | cons row t2 ih =>
    have hrow := h row (List.mem_cons_self _ _)
    have ht2 : ∀ r ∈ t2, (r.leaf = 0 ∨ r.leaf = 1) ∧
        (r.leaf = 1 → 1 ≤ r.cls) ∧ (r.leaf = 0 → r.cls = 0) :=
      fun r hr => h r (List.mem_cons_of_mem _ hr)
    rcases hrow.1 with h0 | h1
    · have hc : row.cls = 0 := hrow.2.2 h0
      rw [List.map_cons, List.map_cons, hc, h0,
        List.filter_cons_of_neg (by simp),
        List.count_cons_of_ne (by norm_num)]
      exact ih ht2
    · have hc : row.cls ≠ 0 := by
        have := hrow.2.1 h1
        intro hh
        rw [hh] at this
        norm_num at this
      rw [List.map_cons, List.map_cons, h1,
        List.filter_cons_of_pos (by simpa using hc),
        List.count_cons_self, List.length_cons, ih ht2]

/-- Claim C5 counterexample: the single-node tree of a one-class dataset
yields a one-row all-leaf table satisfying the tree-property-table
contract, yet `ft_leaves_per_class` drops its only `Counter` entry and its
proportions sum to 0, not 1. -/
theorem claim_C5_cex :
    ExtractionTable [⟨-2, 1, 5, 2⟩] ∧
    ¬ ((ft_leaves_per_class [⟨-2, 1, 5, 2⟩]).sum = 1) := by
  decide

/-- Claim C5 (amended): for a tree-property table whose first row is an
internal root and which has at least one leaf row, `ft_leaves` equals the
number of rows flagged as leaves and the `ft_leaves_per_class` proportions
sum to exactly 1; a one-row all-leaf table (single-node tree) violates the
sum. -/
theorem claim_C5_leaves_and_proportions (table : List TableRow)
    (hext : ExtractionTable table)
    (hroot : ∃ hd t, table = hd :: t ∧ hd.leaf = 0)
    (hleaf : ∃ row ∈ table, row.leaf = 1) :
    ft_leaves table = ((table.map (fun row => row.leaf)).count 1 : ℤ) ∧
    (ft_leaves_per_class table).sum = 1 := by
  have hcount : ft_leaves table =
      ((table.map (fun row => row.leaf)).count 1 : ℤ) := by
    unfold ft_leaves
    refine sum_trunc_eq_count _ ?_
    intro v hv
    obtain ⟨row, hrow, rfl⟩ := List.mem_map.mp hv
    exact (hext row hrow).1
  refine ⟨hcount, ?_⟩
  obtain ⟨hd, t, rfl, hhd⟩ := hroot
  have hhdcls : hd.cls = 0 := (hext hd (List.mem_cons_self _ _)).2.2 hhd
  have hmap : (hd :: t).map (fun row => row.cls) =
      (0 : ℚ) :: t.map (fun row => row.cls) := by
    rw [List.map_cons, hhdcls]
  have hfo : firstOccs ((0 : ℚ) :: t.map (fun row => row.cls)) =
      (0 : ℚ) :: firstOccs
        ((t.map (fun row => row.cls)).filter (fun x => x ≠ (0 : ℚ))) := by
    unfold firstOccs
    simp only [List.length_cons, firstOccsF]
    rw [firstOccsF_fuel_invariant (t.map (fun row => row.cls)).length
      ((t.map (fun row => row.cls)).filter (fun x => x ≠ (0 : ℚ))).length _
      (List.length_filter_le _ _) le_rfl]
  have hcv : counter_values ((0 : ℚ) :: t.map (fun row => row.cls)) =
      (((0 : ℚ) :: t.map (fun row => row.cls)).count 0) ::
        (firstOccs ((t.map (fun row => row.cls)).filter
          (fun x => x ≠ (0 : ℚ)))).map
          (fun v => ((0 : ℚ) :: t.map (fun row => row.cls)).count v) := by
    unfold counter_values
    rw [hfo, List.map_cons]
  have hcongr : (firstOccs ((t.map (fun row => row.cls)).filter
        (fun x => x ≠ (0 : ℚ)))).map
        (fun v => ((0 : ℚ) :: t.map (fun row => row.cls)).count v) =
      (firstOccs ((t.map (fun row => row.cls)).filter
        (fun x => x ≠ (0 : ℚ)))).map
        (fun v => ((t.map (fun row => row.cls)).filter
          (fun x => x ≠ (0 : ℚ))).count v) := by
    refine List.map_congr_left ?_
    intro v hv
    have hvz := (mem_firstOccs _ v).mp hv
    have hvne : v ≠ 0 := by simpa using List.of_mem_filter hvz
    rw [List.count_cons_of_ne hvne, count_filter_ne _ _ _ hvne]
  have hext_t : ∀ r ∈ t, (r.leaf = 0 ∨ r.leaf = 1) ∧
      (r.leaf = 1 → 1 ≤ r.cls) ∧ (r.leaf = 0 → r.cls = 0) :=
    fun r hr => hext r (List.mem_cons_of_mem _ hr)
  have hlen_eq : ((t.map (fun row => row.cls)).filter
      (fun x => x ≠ (0 : ℚ))).length = (t.map (fun row => row.leaf)).count 1 :=
    cls_filter_length_eq_leaf_count t hext_t
  have hL : ft_leaves (hd :: t) =
      (((t.map (fun row => row.leaf)).count 1 : ℕ) : ℤ) := by
    rw [hcount, List.map_cons, hhd, List.count_cons_of_ne (by norm_num)]
  obtain ⟨row, hrowmem, hrleaf⟩ := hleaf
  have hrt : row ∈ t := by
    rcases List.mem_cons.mp hrowmem with h | h
    · subst h
      rw [hhd] at hrleaf
      norm_num at hrleaf
    · exact h
  have hnpos : 0 < (t.map (fun row => row.leaf)).count 1 :=
    List.count_pos_iff.mpr (List.mem_map.mpr ⟨row, hrt, hrleaf⟩)
  have hnq : (((t.map (fun row => row.leaf)).count 1 : ℕ) : ℚ) ≠ 0 := by
    exact_mod_cast Nat.pos_iff_ne_zero.mp hnpos
  unfold ft_leaves_per_class
  rw [hmap, hcv, List.tail_cons, hcongr, sum_map_div_cast,
    sum_counts_firstOccs, hlen_eq, hL]
  push_cast
  rw [div_self hnq]

/-- Witness for claim C5 on a concrete three-row table with an internal
root and two leaves of distinct classes. -/
theorem claim_C5_witness :
    ft_leaves [(⟨2, 0, 10, 0⟩ : TableRow), ⟨-2, 1, 5, 2⟩, ⟨-2, 1, 5, 3⟩] =
      ((([(⟨2, 0, 10, 0⟩ : TableRow), ⟨-2, 1, 5, 2⟩, ⟨-2, 1, 5, 3⟩]).map
        (fun row => row.leaf)).count 1 : ℤ) ∧
    (ft_leaves_per_class
      [(⟨2, 0, 10, 0⟩ : TableRow), ⟨-2, 1, 5, 2⟩, ⟨-2, 1, 5, 3⟩]).sum = 1 :=
  claim_C5_leaves_and_proportions _ (by decide)
    ⟨⟨2, 0, 10, 0⟩, [⟨-2, 1, 5, 2⟩, ⟨-2, 1, 5, 3⟩], rfl, rfl⟩
    ⟨⟨-2, 1, 5, 2⟩, by decide, rfl⟩

end Pymfe
